import Mathlib

/-!
Verification of the StarMath-to-MathML converter (`src/lib.rs`).

The development shallowly embeds the Rust source:
* `decode_html_entities` — the four sequential `str::replace` passes (lib.rs 130-136);
* `tokenize` — the character scanner (lib.rs 80-128);
* `run` — a defunctionalised, fuel-indexed rendition of the mutually
  recursive methods of `Parser` (lib.rs 160-593); each `Call` constructor
  corresponds to one source method (or to the two halves of `parse_group`),
  and the wrappers `parse_expression`, `parse_element`, … recover the
  source names;
* `starmath_to_mathml` — the document assembler (lib.rs 6-63), at the level
  of the XML event stream written into the `quick_xml` writer.

`PResult.panicked` models a Rust panic (the only panic site is the slice
`tokens[group_start..group_end - 1]`, which panics when start exceeds end);
`PResult.fuelOut` for every fuel models non-termination of the source.
-/

namespace Sm2mml

/-- Token (lib.rs 72-78): `Word`, `LBrace`, `RBrace`, `String`. -/
inductive Token where
  | word : String → Token
  | lbrace : Token
  | rbrace : Token
  | str : String → Token
deriving DecidableEq, Repr

/-- One event written to the XML writer: declaration, element start with
attributes, element end, or a text node. -/
inductive Event where
  | decl : Event
  | start : String → List (String × String) → Event
  | stop : String → Event
  | text : String → Event
deriving DecidableEq, Repr

/-- Result of running parser code: normal return, Rust panic, or
out-of-fuel (the latter, for every fuel, models non-termination). -/
inductive PResult (α : Type) where
  | ok : α → PResult α
  | panicked : PResult α
  | fuelOut : PResult α
deriving DecidableEq, Repr

/-- Propagation of `?` / early returns: panic and fuel exhaustion pass
through, a normal value continues. -/
def pbind {α β : Type} : PResult α → (α → PResult β) → PResult β
  | .ok a, f => f a
  | .panicked, _ => .panicked
  | .fuelOut, _ => .fuelOut

@[simp] theorem pbind_ok {α β : Type} (a : α) (f : α → PResult β) :
    pbind (.ok a) f = f a := rfl

@[simp] theorem pbind_panicked {α β : Type} (f : α → PResult β) :
    pbind (.panicked : PResult α) f = .panicked := rfl

@[simp] theorem pbind_fuelOut {α β : Type} (f : α → PResult β) :
    pbind (.fuelOut : PResult α) f = .fuelOut := rfl

/-! ### Entity decoder (lib.rs 130-136) -/

/-- Scanner of Rust `str::replace`, with an explicit structural bound on
the number of scanning steps (each step consumes at least one character,
so a bound of the text's length is exact): scan left to right, replace
every non-overlapping occurrence of `pat`, continue scanning the original
text after the match (replacement output is not re-scanned within the
same pass). -/
def replaceAllB (pat rep : List Char) : Nat → List Char → List Char
  | 0, s => s
  | b + 1, s =>
    match s with
    | [] => []
    | c :: rest =>
      if pat ≠ [] ∧ pat.isPrefixOf (c :: rest) then
        rep ++ replaceAllB pat rep b ((c :: rest).drop pat.length)
      else
        c :: replaceAllB pat rep b rest

/-- Rust `str::replace` of `pat` by `rep`. -/
def replaceAll (pat rep : List Char) (s : List Char) : List Char :=
  replaceAllB pat rep s.length s

/-- Entity decoder (lib.rs 130-136): four sequential whole-string
replacement passes, in source order `&quot;`, `&amp;`, `&lt;`, `&gt;`. -/
def decode_html_entities (input : String) : String :=
  String.mk
    (replaceAll "&gt;".toList ">".toList
      (replaceAll "&lt;".toList "<".toList
        (replaceAll "&amp;".toList "&".toList
          (replaceAll "&quot;".toList "\"".toList input.toList))))

/-! ### Tokenizer (lib.rs 80-128) -/

/-- The `{` character, written via its code point. -/
def lbraceChar : Char := Char.ofNat 123

/-- The `}` character, written via its code point. -/
def rbraceChar : Char := Char.ofNat 125

/-- Characters that end a `Word` run (lib.rs 115). -/
def wordDelim (c : Char) : Bool :=
  c == ' ' || c == lbraceChar || c == rbraceChar || c == '"' || c == '\t' || c == '\n'

/-- Scanner loop of `tokenize` (lib.rs 87-125), over the decoded text,
with an explicit structural bound on the number of scanning steps (each
step consumes at least one character, so a bound of the text's length is
exact). -/
def tokenizeLoopB : Nat → List Char → List Token
  | 0, _ => []
  | b + 1, s =>
    match s with
    | [] => []
    | c :: rest =>
      if c = ' ' ∨ c = '\t' ∨ c = '\n' then
        tokenizeLoopB b rest
      else if c = lbraceChar then
        Token.lbrace :: tokenizeLoopB b rest
      else if c = rbraceChar then
        Token.rbrace :: tokenizeLoopB b rest
      else if c = '"' then
        -- consume until the next '"' (which is also consumed) or end of input
        let sChars := rest.takeWhile (fun ch => ch != '"')
        Token.str (String.mk sChars) :: tokenizeLoopB b (rest.drop (sChars.length + 1))
      else
        -- maximal run of non-delimiter characters; nonempty since `c` is one,
        -- so the source's `!word.is_empty()` guard is always true here
        let w := c :: rest.takeWhile (fun ch => !wordDelim ch)
        Token.word (String.mk w) ::
          tokenizeLoopB b (rest.drop (rest.takeWhile (fun ch => !wordDelim ch)).length)

/-- `tokenize` (lib.rs 80-128): decode the input first, then scan. -/
def tokenize (input : String) : List Token :=
  tokenizeLoopB (decode_html_entities input).toList.length
    (decode_html_entities input).toList

/-! ### Parser/emitter (lib.rs 138-593) -/

/-- Indentation text written before nested output:
a newline followed by `"  ".repeat n`. -/
def nlIndent (n : Nat) : String :=
  "\n" ++ String.mk (List.replicate (2 * n) ' ')

/-- Fixed operator glyph set (lib.rs 200). -/
def isOperatorWord (w : String) : Prop :=
  w = "±" ∨ w = "+-" ∨ w = "−" ∨ w = "-" ∨ w = "×" ∨ w = "*" ∨ w = "times"

instance (w : String) : Decidable (isOperatorWord w) := by
  unfold isOperatorWord; infer_instance

/-- Standard function name set (lib.rs 216-255). -/
def isStdFunction (w : String) : Bool :=
  ["sin", "cos", "tan", "sec", "csc", "cot", "sinh", "cosh", "tanh", "sech",
   "csch", "coth", "arcsin", "arccos", "arctan", "arcsec", "arccsc", "arccot",
   "log", "ln", "lg", "exp", "lim", "sup", "inf", "max", "min", "det", "dim",
   "ker", "deg", "gcd", "lcm", "Pr", "hom", "arg", "mod"].contains w

/-- Number classification (lib.rs 209): every character an ASCII digit or
a comma. -/
def isNumberWord (w : String) : Bool :=
  w.toList.all (fun c => c.isDigit || c == ',')

/-- Lookahead scan of `parse_group` (lib.rs 289-299), with an explicit
structural bound (the loop advances one index per step, so a bound of
`ts.length - temp` is exact; the bound runs out only when `temp` has
reached the end, where the loop stops anyway): from `temp`, with
open-brace count `count`, find the index just past the brace that closes
the group (or the end of the tokens). -/
def scanGroupEndB (ts : List Token) : Nat → Nat → Nat → Nat
  | 0, temp, _ => temp
  | b + 1, temp, count =>
    if temp < ts.length ∧ 0 < count then
      match ts.get? temp with
      | some .lbrace => scanGroupEndB ts b (temp + 1) (count + 1)
      | some .rbrace => scanGroupEndB ts b (temp + 1) (count - 1)
      | _ => scanGroupEndB ts b (temp + 1) count
    else temp

/-- Lookahead scan of `parse_group` (lib.rs 289-299). -/
def scanGroupEnd (ts : List Token) (temp count : Nat) : Nat :=
  scanGroupEndB ts (ts.length - temp) temp count

/-- Rust slice `ts[a..b]`: `none` models the bounds panic
(`a > b` or `b > len`). -/
def sliceTokens (ts : List Token) (a b : Nat) : Option (List Token) :=
  if a ≤ b ∧ b ≤ ts.length then some ((ts.drop a).take (b - a)) else none

/-- Defunctionalised call: one constructor per `Parser` method of the
source (`groupPostfix`/`groupPlain` are the two halves of `parse_group`
after its lookahead; `exprGo` is `parse_expression`'s loop with its
`first` flag; `fenceBody` is `parse_left_fence`'s interior loop). -/
inductive Call where
  | exprGo (ts : List Token) (pos depth : Nat) (first : Bool)
  | elem (ts : List Token) (pos depth : Nat)
  | group (ts : List Token) (pos depth : Nat)
  | groupPostfix (name : String) (ts : List Token) (pos groupEnd depth : Nat)
  | groupPlain (ts : List Token) (pos groupEnd depth : Nat)
  | accent (ts : List Token) (pos depth : Nat) (glyph : String)
  | sqrtCall (ts : List Token) (pos depth : Nat)
  | sumCall (ts : List Token) (pos depth : Nat)
  | leftFence (ts : List Token) (pos depth : Nat)
  | fenceBody (ts : List Token) (pos depth : Nat)

/-- A recursive-call handle: `rec c` is the recursive invocation of the
parser on call `c` (with one unit of fuel consumed). -/
def Rec : Type := Call → PResult (List Event × Nat)

/-- Body of the `parse_expression` loop (lib.rs 168-179), as a function
of the peeked token: stop at end or `RightBrace`; otherwise emit the
separating indentation (except before the first element), parse one
element, and continue the loop at the new cursor. -/
def exprGoStep (rec : Rec) (ts : List Token) (pos depth : Nat) (first : Bool) :
    Option Token → PResult (List Event × Nat)
  | none => .ok ([], pos)
  | some t =>
    if t = Token.rbrace then .ok ([], pos)
    else
      pbind (rec (.elem ts pos depth)) fun r =>
      pbind (rec (.exprGo ts r.2 depth false)) fun r2 =>
      .ok ((if first then [] else [Event.text (nlIndent (3 + depth))])
            ++ r.1 ++ r2.1, r2.2)

/-- Body of `parse_element` (lib.rs 183-284), as a function of the peeked
token. -/
def elemStep (rec : Rec) (ts : List Token) (pos depth : Nat) :
    Option Token → PResult (List Event × Nat)
  | none => .ok ([], pos)
  | some (.word w) =>
    if w = "acute" then rec (.accent ts pos depth "´")
    else if w = "sqrt" then rec (.sqrtCall ts pos depth)
    else if w = "sum" then rec (.sumCall ts pos depth)
    else if w = "left" then rec (.leftFence ts pos depth)
    else if w = "right" then
      -- consume "right" and (if present) the following token (lib.rs 195-199)
      .ok ([], if pos + 1 < ts.length then pos + 2 else pos + 1)
    else if isOperatorWord w then
      .ok ([.start "mo" [], .text w, .stop "mo"], pos + 1)
    else if isNumberWord w then
      .ok ([.start "mn" [], .text w, .stop "mn"], pos + 1)
    else
      .ok ([.start "mi"
              (if 1 < w.utf8ByteSize ∧ isStdFunction w = false then
                [("mathvariant", "italic")] else []),
            .text w, .stop "mi"], pos + 1)
  | some (.str s) =>
    .ok ([.start "mtext" [], .text s, .stop "mtext"], pos + 1)
  | some .lbrace => rec (.group ts (pos + 1) depth)
  | some .rbrace => .ok ([], pos)

/-- Dispatch of `parse_group` (lib.rs 303-398) on the token that follows
the group. -/
def groupDispatch (rec : Rec) (ts : List Token) (pos groupEnd depth : Nat) :
    Option Token → PResult (List Event × Nat)
  | some (.word op) =>
    if op = "rsub" then rec (.groupPostfix "msub" ts pos groupEnd depth)
    else if op = "^" then rec (.groupPostfix "msup" ts pos groupEnd depth)
    else if op = "over" then rec (.groupPostfix "mfrac" ts pos groupEnd depth)
    else rec (.groupPlain ts pos groupEnd depth)
  | some .lbrace => rec (.groupPlain ts pos groupEnd depth)
  | some .rbrace => rec (.groupPlain ts pos groupEnd depth)
  | some (.str _) => rec (.groupPlain ts pos groupEnd depth)
  | none => rec (.groupPlain ts pos groupEnd depth)

/-- The rsub/^/over branches of `parse_group` (lib.rs 306-395), as a
function of the sliced group interior (`none` is the slice panic): emit
the construct element around the re-parsed interior and the single
following element, then swallow one directly following `RightBrace`. -/
def postfixStep (rec : Rec) (name : String) (ts : List Token)
    (groupEnd depth : Nat) :
    Option (List Token) → PResult (List Event × Nat)
  | none => .panicked
  | some sub =>
    pbind (rec (.exprGo sub 0 (depth + 1) true)) fun base =>
    pbind (rec (.elem ts (groupEnd + 1) (depth + 1))) fun scr =>
    .ok ([.start name [], .text (nlIndent (4 + depth))] ++ base.1
          ++ [.text (nlIndent (4 + depth))] ++ scr.1
          ++ [.text (nlIndent (3 + depth)), .stop name],
         if ts.get? scr.2 = some Token.rbrace then scr.2 + 1 else scr.2)

/-- The plain-group branch of `parse_group` (lib.rs 400-409), as a
function of the sliced group interior (`none` is the slice panic). -/
def plainStep (rec : Rec) (groupEnd depth : Nat) :
    Option (List Token) → PResult (List Event × Nat)
  | none => .panicked
  | some sub =>
    pbind (rec (.exprGo sub 0 depth true)) fun r =>
    .ok (r.1, groupEnd)

/-- Opening events of a fence (lib.rs 512-537). -/
def fencePre (fence : String) (depth : Nat) : List Event :=
  [.start "mrow" [], .text (nlIndent (4 + depth)),
   .start "mo" [("fence", "true"), ("form", "prefix"), ("stretchy", "true")],
   .text fence, .stop "mo",
   .text (nlIndent (4 + depth)),
   .start "mrow" [], .text (nlIndent (5 + depth)),
   .start "mrow" [], .text (nlIndent (6 + depth))]

/-- Events closing the two interior `mrow`s of a fence (lib.rs 560-569). -/
def fencePost (depth : Nat) : List Event :=
  [.text (nlIndent (5 + depth)), .stop "mrow",
   .text (nlIndent (4 + depth)), .stop "mrow",
   .text (nlIndent (4 + depth))]

/-- Closing-glyph step of `parse_left_fence` (lib.rs 573-592), as a
function of the token peeked after skipping `right`: a `Word` becomes the
postfix fence glyph and the outer `mrow` is closed; anything else returns
early, leaving the outer `mrow` unclosed. -/
def fenceCloseStep (evs : List Event) (p2 depth : Nat) :
    Option Token → PResult (List Event × Nat)
  | some (.word cf) =>
    .ok (evs
          ++ [.start "mo" [("fence", "true"), ("form", "postfix"), ("stretchy", "true")],
              .text cf, .stop "mo",
              .text (nlIndent (3 + depth)), .stop "mrow"], p2 + 1)
  | some .lbrace => .ok (evs, p2)
  | some .rbrace => .ok (evs, p2)
  | some (.str _) => .ok (evs, p2)
  | none => .ok (evs, p2)

/-- Body of `parse_left_fence` (lib.rs 495-593), as a function of the
token peeked after `left`: a non-`Word` returns with nothing emitted;
a `Word` is the opening glyph, then the interior loop runs, then `right`
is skipped and the closing-glyph step runs. -/
def leftFenceStep (rec : Rec) (ts : List Token) (pos depth : Nat) :
    Option Token → PResult (List Event × Nat)
  | some (.word fence) =>
    pbind (rec (.fenceBody ts (pos + 2) depth)) fun body =>
    -- skip "right" (lib.rs 572): advance only if a token remains
    let p2 := if body.2 < ts.length then body.2 + 1 else body.2
    fenceCloseStep (fencePre fence depth ++ body.1 ++ fencePost depth)
      p2 depth (ts.get? p2)
  | some .lbrace => .ok ([], pos + 1)
  | some .rbrace => .ok ([], pos + 1)
  | some (.str _) => .ok ([], pos + 1)
  | none => .ok ([], pos + 1)

/-- Indentation written between fence-interior elements (lib.rs 548-557):
only when the next token is a `Word` other than `right`. -/
def fenceIndent (depth : Nat) : Option Token → List Event
  | some (.word w) =>
    if w = "right" then [] else [.text (nlIndent (6 + depth))]
  | some .lbrace => []
  | some .rbrace => []
  | some (.str _) => []
  | none => []

/-- Interior loop of `parse_left_fence` (lib.rs 540-558), as a function
of the peeked token: stop at end of input or at the word `right`;
otherwise parse one element, write the separating indentation, and
continue. -/
def fenceBodyStep (rec : Rec) (ts : List Token) (pos depth : Nat) :
    Option Token → PResult (List Event × Nat)
  | none => .ok ([], pos)
  | some t =>
    if t = Token.word "right" then .ok ([], pos)
    else
      pbind (rec (.elem ts pos (depth + 3))) fun r =>
      pbind (rec (.fenceBody ts r.2 depth)) fun r2 =>
      .ok (r.1 ++ fenceIndent depth (ts.get? r.2) ++ r2.1, r2.2)

/-- The parser/emitter (lib.rs 160-593). Each branch returns the events
it writes plus the updated cursor. Fuel decreases on every call; a result
other than `.fuelOut` is the source's behaviour. -/
def run : Nat → Call → PResult (List Event × Nat)
  | 0, _ => .fuelOut
  | fuel + 1, c =>
    match c with
    -- parse_expression loop (lib.rs 160-181)
    | .exprGo ts pos depth first =>
      exprGoStep (run fuel) ts pos depth first (ts.get? pos)
    -- parse_element (lib.rs 183-284)
    | .elem ts pos depth => elemStep (run fuel) ts pos depth (ts.get? pos)
    -- parse_group lookahead and dispatch (lib.rs 286-410)
    | .group ts pos depth =>
      groupDispatch (run fuel) ts pos (scanGroupEnd ts pos 1) depth
        (ts.get? (scanGroupEnd ts pos 1))
    -- the rsub/^/over branches of parse_group (lib.rs 306-395)
    | .groupPostfix name ts pos groupEnd depth =>
      postfixStep (run fuel) name ts groupEnd depth
        (sliceTokens ts pos (groupEnd - 1))
    -- the plain-group branch of parse_group (lib.rs 400-409)
    | .groupPlain ts pos groupEnd depth =>
      plainStep (run fuel) groupEnd depth (sliceTokens ts pos (groupEnd - 1))
    -- parse_accent (lib.rs 412-442)
    | .accent ts pos depth glyph =>
      pbind (run fuel (.elem ts (pos + 1) (depth + 1))) fun r =>
      .ok ([.start "mover" [("accent", "true")], .text (nlIndent (4 + depth))]
            ++ r.1
            ++ [.text (nlIndent (4 + depth)),
                .start "mo" [("stretchy", "false")], .text glyph, .stop "mo",
                .text (nlIndent (3 + depth)), .stop "mover"], r.2)
    -- parse_sqrt (lib.rs 444-459)
    | .sqrtCall ts pos depth =>
      pbind (run fuel (.elem ts (pos + 1) (depth + 1))) fun r =>
      .ok ([.start "msqrt" [], .text (nlIndent (4 + depth))] ++ r.1
            ++ [.text (nlIndent (3 + depth)), .stop "msqrt"], r.2)
    -- parse_sum (lib.rs 461-493)
    | .sumCall ts pos depth =>
      pbind (run fuel (.elem ts (pos + 1) (depth + 2))) fun r =>
      .ok ([.start "mrow" [], .text (nlIndent (4 + depth)),
            .start "mo" [("stretchy", "false")], .text "∑", .stop "mo",
            .text (nlIndent (4 + depth)),
            .start "mrow" [], .text (nlIndent (5 + depth))] ++ r.1
            ++ [.text (nlIndent (4 + depth)), .stop "mrow",
                .text (nlIndent (3 + depth)), .stop "mrow"], r.2)
    -- parse_left_fence (lib.rs 495-593)
    | .leftFence ts pos depth =>
      leftFenceStep (run fuel) ts pos depth (ts.get? (pos + 1))
    -- the interior loop of parse_left_fence (lib.rs 540-558)
    | .fenceBody ts pos depth =>
      fenceBodyStep (run fuel) ts pos depth (ts.get? pos)

/-- Source method `Parser::parse_expression` (lib.rs 160-181). -/
def parse_expression (fuel : Nat) (ts : List Token) (pos depth : Nat) :
    PResult (List Event × Nat) :=
  run fuel (.exprGo ts pos depth true)

/-- Source method `Parser::parse_element` (lib.rs 183-284). -/
def parse_element (fuel : Nat) (ts : List Token) (pos depth : Nat) :
    PResult (List Event × Nat) :=
  run fuel (.elem ts pos depth)

/-- Source method `Parser::parse_left_fence` (lib.rs 495-593). -/
def parse_left_fence (fuel : Nat) (ts : List Token) (pos depth : Nat) :
    PResult (List Event × Nat) :=
  run fuel (.leftFence ts pos depth)

/-! ### Document assembler (lib.rs 6-63) -/

/-- Events written before the parsed fragment (lib.rs 10-26). -/
def docHeader : List Event :=
  [.decl, .text "\n",
   .start "math" [("xmlns", "http://www.w3.org/1998/Math/MathML"), ("display", "block")],
   .text "\n  ", .start "semantics" [], .text "\n    ",
   .start "mrow" [], .text "\n      "]

/-- Events between the parsed fragment and the annotation text (lib.rs 31-40). -/
def docMid : List Event :=
  [.text "\n    ", .stop "mrow", .text "\n    ",
   .start "annotation" [("encoding", "StarMath 5.0")]]

/-- Annotation text events (lib.rs 42-48): multiline formatting exactly
when the decoded text is longer than 70 bytes (`String::len`). -/
def annotationBody (decoded : String) : List Event :=
  if 70 < decoded.utf8ByteSize then
    [.text "\n      ", .text decoded]
  else
    [.text decoded]

/-- Events written after the annotation text (lib.rs 50-59). -/
def docTail : List Event :=
  [.stop "annotation", .text "\n  ", .stop "semantics",
   .text "\n", .stop "math", .text "\n"]

/-- `starmath_to_mathml` (lib.rs 6-63) at the XML-event level: assemble
the fixed document skeleton around the parsed fragment and the decoded
annotation text. -/
def starmath_to_mathml (fuel : Nat) (input : String) : PResult (List Event) :=
  match parse_expression fuel (tokenize input) 0 0 with
  | .ok r =>
    .ok (docHeader ++ r.1 ++ docMid
          ++ annotationBody (decode_html_entities input) ++ docTail)
  | .panicked => .panicked
  | .fuelOut => .fuelOut

/-! ### Helper lemmas about the decoder -/

/-- A replacement pass whose pattern starts with `&` leaves a text without
`&` unchanged. -/
theorem replaceAllB_amp_free (ps rep : List Char) (b : Nat) :
    ∀ s : List Char, (∀ c ∈ s, c ≠ '&') →
      replaceAllB ('&' :: ps) rep b s = s := by
  induction b with
  | zero => intro s _; rfl
  | succ b ih =>
    intro s hs
    cases s with
    | nil => rfl
    | cons c rest =>
      have hc : c ≠ '&' := hs c (List.mem_cons_self c rest)
      rw [replaceAllB, if_neg]
      · rw [ih rest (fun x hx => hs x (List.mem_cons_of_mem _ hx))]
      · rintro ⟨-, hpre⟩
        simp only [List.isPrefixOf, Bool.and_eq_true, beq_iff_eq] at hpre
        exact hc hpre.1.symm

/-- The decoder is the identity on strings that contain no ampersand. -/
theorem decode_of_no_amp (s : String) (h : ∀ c ∈ s.toList, c ≠ '&') :
    decode_html_entities s = s := by
  have hq : replaceAll "&quot;".toList "\"".toList s.toList = s.toList :=
    replaceAllB_amp_free _ _ _ s.toList h
  have ha : replaceAll "&amp;".toList "&".toList s.toList = s.toList :=
    replaceAllB_amp_free _ _ _ s.toList h
  have hl : replaceAll "&lt;".toList "<".toList s.toList = s.toList :=
    replaceAllB_amp_free _ _ _ s.toList h
  have hg : replaceAll "&gt;".toList ">".toList s.toList = s.toList :=
    replaceAllB_amp_free _ _ _ s.toList h
  unfold decode_html_entities
  rw [hq, ha, hl, hg]
  cases s
  rfl

/-- Whitespace-only text tokenizes to nothing. -/
theorem tokenizeLoopB_ws (b : Nat) :
    ∀ s : List Char, (∀ c ∈ s, c = ' ' ∨ c = '\t' ∨ c = '\n') →
      tokenizeLoopB b s = [] := by
  induction b with
  | zero => intro s _; rfl
  | succ b ih =>
    intro s hs
    cases s with
    | nil => rfl
    | cons c rest =>
      rw [tokenizeLoopB, if_pos (hs c (List.mem_cons_self c rest))]
      exact ih rest (fun x hx => hs x (List.mem_cons_of_mem _ hx))

/-! ### Fuel monotonicity -/

/-- Congruence for `pbind` under pointwise agreement on non-exhausted
results. -/
theorem pbind_mono {α β : Type} {x x' : PResult α} {k k' : α → PResult β}
    (hx : x ≠ .fuelOut → x' = x)
    (hk : ∀ a, k a ≠ .fuelOut → k' a = k a)
    (hne : pbind x k ≠ .fuelOut) :
    pbind x' k' = pbind x k := by
  cases hxv : x with
  | fuelOut => rw [hxv] at hne; exact absurd rfl hne
  | panicked =>
    rw [hx (by rw [hxv]; intro hc; exact PResult.noConfusion hc), hxv]
    rfl
  | ok a =>
    rw [hx (by rw [hxv]; intro hc; exact PResult.noConfusion hc), hxv]
    simp only [pbind_ok]
    exact hk a (by rw [hxv] at hne; simpa only [pbind_ok] using hne)

/-- Fuel monotonicity: a run that does not exhaust its fuel returns the
same result with any larger fuel.  So a `.ok`/`.panicked` result at any
fuel is the behaviour of the source, and `.fuelOut` at every fuel is
non-termination. -/
theorem run_mono : ∀ f g c, f ≤ g → run f c ≠ .fuelOut → run g c = run f c := by
  intro f
  induction f with
  | zero =>
    intro g c _ hne
    exact absurd rfl hne
  | succ n ih =>
    intro g c hle hne
    obtain ⟨m, rfl⟩ : ∃ m, g = m + 1 := ⟨g - 1, by omega⟩
    have IH : ∀ c, run n c ≠ .fuelOut → run m c = run n c :=
      fun c h => ih m c (Nat.le_of_succ_le_succ hle) h
    cases c with
    | exprGo ts pos depth first =>
      simp only [run] at hne ⊢
      cases hget : ts.get? pos with
      | none => rfl
      | some t =>
        rw [hget] at hne
        simp only [exprGoStep] at hne ⊢
        by_cases ht : t = Token.rbrace
        · simp only [if_pos ht]
        · simp only [if_neg ht] at hne ⊢
          exact pbind_mono (fun h => IH _ h)
            (fun r hr => pbind_mono (fun h => IH _ h) (fun r2 _ => rfl) hr) hne
    | elem ts pos depth =>
      simp only [run] at hne ⊢
      cases hget : ts.get? pos with
      | none => rfl
      | some t =>
        rw [hget] at hne
        cases t with
        | rbrace => rfl
        | str s => rfl
        | lbrace => simp only [elemStep] at hne ⊢; exact IH _ hne
        | word w =>
          simp only [elemStep] at hne ⊢
          by_cases h1 : w = "acute"
          · simp only [if_pos h1] at hne ⊢; exact IH _ hne
          · simp only [if_neg h1] at hne ⊢
            by_cases h2 : w = "sqrt"
            · simp only [if_pos h2] at hne ⊢; exact IH _ hne
            · simp only [if_neg h2] at hne ⊢
              by_cases h3 : w = "sum"
              · simp only [if_pos h3] at hne ⊢; exact IH _ hne
              · simp only [if_neg h3] at hne ⊢
                by_cases h4 : w = "left"
                · simp only [if_pos h4] at hne ⊢; exact IH _ hne
                · simp only [if_neg h4] at hne ⊢
    | group ts pos depth =>
      simp only [run] at hne ⊢
      cases hget : ts.get? (scanGroupEnd ts pos 1) with
      | none =>
        rw [hget] at hne
        simp only [groupDispatch] at hne ⊢
        exact IH _ hne
      | some t =>
        rw [hget] at hne
        cases t with
        | word op =>
          simp only [groupDispatch] at hne ⊢
          by_cases h1 : op = "rsub"
          · simp only [if_pos h1] at hne ⊢; exact IH _ hne
          · simp only [if_neg h1] at hne ⊢
            by_cases h2 : op = "^"
            · simp only [if_pos h2] at hne ⊢; exact IH _ hne
            · simp only [if_neg h2] at hne ⊢
              by_cases h3 : op = "over"
              · simp only [if_pos h3] at hne ⊢; exact IH _ hne
              · simp only [if_neg h3] at hne ⊢; exact IH _ hne
        | lbrace => simp only [groupDispatch] at hne ⊢; exact IH _ hne
        | rbrace => simp only [groupDispatch] at hne ⊢; exact IH _ hne
        | str s => simp only [groupDispatch] at hne ⊢; exact IH _ hne
    | groupPostfix name ts pos groupEnd depth =>
      simp only [run] at hne ⊢
      cases hsl : sliceTokens ts pos (groupEnd - 1) with
      | none => rfl
      | some sub =>
        rw [hsl] at hne
        simp only [postfixStep] at hne ⊢
        exact pbind_mono (fun h => IH _ h)
          (fun r hr => pbind_mono (fun h => IH _ h) (fun r2 _ => rfl) hr) hne
    | groupPlain ts pos groupEnd depth =>
      simp only [run] at hne ⊢
      cases hsl : sliceTokens ts pos (groupEnd - 1) with
      | none => rfl
      | some sub =>
        rw [hsl] at hne
        simp only [plainStep] at hne ⊢
        exact pbind_mono (fun h => IH _ h) (fun r _ => rfl) hne
    | accent ts pos depth glyph =>
      simp only [run] at hne ⊢
      exact pbind_mono (fun h => IH _ h) (fun r _ => rfl) hne
    | sqrtCall ts pos depth =>
      simp only [run] at hne ⊢
      exact pbind_mono (fun h => IH _ h) (fun r _ => rfl) hne
    | sumCall ts pos depth =>
      simp only [run] at hne ⊢
      exact pbind_mono (fun h => IH _ h) (fun r _ => rfl) hne
    | leftFence ts pos depth =>
      simp only [run] at hne ⊢
      cases hget : ts.get? (pos + 1) with
      | none => rfl
      | some t =>
        rw [hget] at hne
        cases t with
        | word fence =>
          simp only [leftFenceStep] at hne ⊢
          exact pbind_mono (fun h => IH _ h) (fun r _ => rfl) hne
        | lbrace => rfl
        | rbrace => rfl
        | str s => rfl
    | fenceBody ts pos depth =>
      simp only [run] at hne ⊢
      cases hget : ts.get? pos with
      | none => rfl
      | some t =>
        rw [hget] at hne
        simp only [fenceBodyStep] at hne ⊢
        by_cases ht : t = Token.word "right"
        · simp only [if_pos ht]
        · simp only [if_neg ht] at hne ⊢
          exact pbind_mono (fun h => IH _ h)
            (fun r hr => pbind_mono (fun h => IH _ h) (fun r2 _ => rfl) hr) hne

/-! ### Rendering of plain words -/

/-- The output of `parse_element` for a `Word` that is none of the five
construct keywords (lib.rs 200-267): operator glyph, number, or
identifier. -/
def renderWord (w : String) : List Event :=
  if isOperatorWord w then [.start "mo" [], .text w, .stop "mo"]
  else if isNumberWord w then [.start "mn" [], .text w, .stop "mn"]
  else [.start "mi"
          (if 1 < w.utf8ByteSize ∧ isStdFunction w = false then
            [("mathvariant", "italic")] else []),
        .text w, .stop "mi"]

/-- A non-keyword `Word` is rendered by `renderWord` and advances the
cursor by one. -/
theorem elem_plain_word (f : Nat) (ts : List Token) (pos depth : Nat)
    (w : String) (hw : ts.get? pos = some (Token.word w))
    (h1 : w ≠ "acute") (h2 : w ≠ "sqrt") (h3 : w ≠ "sum")
    (h4 : w ≠ "left") (h5 : w ≠ "right") :
    run (f + 1) (Call.elem ts pos depth) = .ok (renderWord w, pos + 1) := by
  simp only [run]
  rw [hw]
  simp only [elemStep]
  rw [if_neg h1, if_neg h2, if_neg h3, if_neg h4, if_neg h5]
  by_cases hop : isOperatorWord w
  · simp [renderWord, hop]
  · by_cases hnum : isNumberWord w = true
    · simp [renderWord, hop, hnum]
    · simp [renderWord, hop, hnum]

/-- Parsing a one-word token sequence (at nesting depth 1) succeeds and
leaves the cursor on the sequence end. -/
theorem exprGo_singleWord1 (a : String) :
    ∃ evs, run 5 (Call.exprGo [Token.word a] 0 1 true) = .ok (evs, 1) := by
  by_cases h1 : a = "acute"
  · subst h1
    exact ⟨[Event.start "mover" [("accent", "true")], Event.text "\n          ",
            Event.text "\n          ", Event.start "mo" [("stretchy", "false")],
            Event.text "´", Event.stop "mo", Event.text "\n        ",
            Event.stop "mover"], by decide⟩
  by_cases h2 : a = "sqrt"
  · subst h2
    exact ⟨[Event.start "msqrt" [], Event.text "\n          ",
            Event.text "\n        ", Event.stop "msqrt"], by decide⟩
  by_cases h3 : a = "sum"
  · subst h3
    exact ⟨[Event.start "mrow" [], Event.text "\n          ",
            Event.start "mo" [("stretchy", "false")], Event.text "∑",
            Event.stop "mo", Event.text "\n          ", Event.start "mrow" [],
            Event.text "\n            ", Event.text "\n          ",
            Event.stop "mrow", Event.text "\n        ", Event.stop "mrow"],
          by decide⟩
  by_cases h4 : a = "left"
  · subst h4
    exact ⟨[], by decide⟩
  by_cases h5 : a = "right"
  · subst h5
    exact ⟨[], by decide⟩
  refine ⟨renderWord a, ?_⟩
  have he : run 4 (Call.elem [Token.word a] 0 1) = .ok (renderWord a, 1) :=
    elem_plain_word 3 [Token.word a] 0 1 a rfl h1 h2 h3 h4 h5
  have t1 : run 5 (Call.exprGo [Token.word a] 0 1 true) =
      pbind (run 4 (Call.elem [Token.word a] 0 1)) (fun r =>
        pbind (run 4 (Call.exprGo [Token.word a] r.2 1 false)) (fun r2 =>
          .ok (r.1 ++ r2.1, r2.2))) := rfl
  rw [t1, he]
  simp only [pbind_ok]
  have t2 : run 4 (Call.exprGo [Token.word a] 1 1 false) = .ok ([], 1) := rfl
  rw [t2]
  simp only [pbind_ok]
  simp

/-- Shape of the rsub/^/over branch of `parse_group` on a braced single
word followed by the construct keyword and a braced single word: the
construct element `name` wraps the rendering of the base and the
rendering of the script, and the closing `RightBrace` of the script is
swallowed (the token at index 3, the construct keyword, is not inspected
here — the group dispatcher has already acted on it). -/
theorem postfix_shape_aux (f : Nat) (name a b : String) (t4 : Token)
    (ea eb : List Event)
    (ha : run (f + 1 + 1 + 1) (Call.exprGo [Token.word a] 0 1 true) = .ok (ea, 1))
    (hb : run f (Call.exprGo [Token.word b] 0 1 true) = .ok (eb, 1)) :
    run (f + 1 + 1 + 1 + 1)
      (Call.groupPostfix name [Token.lbrace, Token.word a, Token.rbrace, t4, Token.lbrace, Token.word b, Token.rbrace] 1 3 0) =
    .ok ([Event.start name [], Event.text (nlIndent 4)] ++ ea
          ++ [Event.text (nlIndent 4)] ++ eb
          ++ [Event.text (nlIndent 3), Event.stop name], 7) := by
  have t1 : run (f + 1 + 1 + 1 + 1)
      (Call.groupPostfix name [Token.lbrace, Token.word a, Token.rbrace, t4, Token.lbrace, Token.word b, Token.rbrace] 1 3 0) =
      pbind (run (f + 1 + 1 + 1) (Call.exprGo [Token.word a] 0 1 true)) (fun base =>
        pbind (run (f + 1 + 1 + 1)
            (Call.elem [Token.lbrace, Token.word a, Token.rbrace, t4, Token.lbrace, Token.word b, Token.rbrace] 4 1)) (fun scr =>
          .ok ([Event.start name [], Event.text (nlIndent 4)] ++ base.1
                ++ [Event.text (nlIndent 4)] ++ scr.1
                ++ [Event.text (nlIndent 3), Event.stop name],
               if [Token.lbrace, Token.word a, Token.rbrace, t4, Token.lbrace, Token.word b, Token.rbrace].get? scr.2 = some Token.rbrace
               then scr.2 + 1 else scr.2))) := rfl
  rw [t1, ha]
  simp only [pbind_ok]
  have t2 : run (f + 1 + 1 + 1)
      (Call.elem [Token.lbrace, Token.word a, Token.rbrace, t4, Token.lbrace, Token.word b, Token.rbrace] 4 1) =
      pbind (run f (Call.exprGo [Token.word b] 0 1 true)) (fun r =>
        .ok (r.1, 7)) := rfl
  rw [t2, hb]
  simp only [pbind_ok]
  rfl

/-! ### Claims -/

/-- Helper for C6: the rsub/^/over branch of `parse_group` attaches
exactly the one element parsed after the keyword (here a plain word `b`)
and then consumes a directly following `RightBrace` if present: the final
cursor is 6 when the token after the script is a `RightBrace` (swallowed)
and 5 otherwise. -/
theorem postfix_script_aux (f : Nat) (name a b : String) (t4 t6 : Token)
    (ea : List Event)
    (hb1 : b ≠ "acute") (hb2 : b ≠ "sqrt") (hb3 : b ≠ "sum")
    (hb4 : b ≠ "left") (hb5 : b ≠ "right")
    (ha : run (f + 1) (Call.exprGo [Token.word a] 0 1 true) = .ok (ea, 1)) :
    run (f + 1 + 1)
      (Call.groupPostfix name [Token.lbrace, Token.word a, Token.rbrace, t4, Token.word b, t6] 1 3 0) =
    .ok ([Event.start name [], Event.text (nlIndent 4)] ++ ea
          ++ [Event.text (nlIndent 4)] ++ renderWord b
          ++ [Event.text (nlIndent 3), Event.stop name],
         if t6 = Token.rbrace then 6 else 5) := by
  have t1 : run (f + 1 + 1)
      (Call.groupPostfix name [Token.lbrace, Token.word a, Token.rbrace, t4, Token.word b, t6] 1 3 0) =
      pbind (run (f + 1) (Call.exprGo [Token.word a] 0 1 true)) (fun base =>
        pbind (run (f + 1)
            (Call.elem [Token.lbrace, Token.word a, Token.rbrace, t4, Token.word b, t6] 4 1)) (fun scr =>
          .ok ([Event.start name [], Event.text (nlIndent 4)] ++ base.1
                ++ [Event.text (nlIndent 4)] ++ scr.1
                ++ [Event.text (nlIndent 3), Event.stop name],
               if [Token.lbrace, Token.word a, Token.rbrace, t4, Token.word b, t6].get? scr.2 = some Token.rbrace
               then scr.2 + 1 else scr.2))) := rfl
  rw [t1, ha]
  simp only [pbind_ok]
  rw [elem_plain_word f [Token.lbrace, Token.word a, Token.rbrace, t4, Token.word b, t6] 4 1 b rfl hb1 hb2 hb3 hb4 hb5]
  simp only [pbind_ok]
  simp

/-- C6: when a braced group is followed by `rsub`/`^`/`over`, exactly the
single element parsed by `parse_element` immediately after the keyword
(here the plain word `B`) becomes the attached script — a further token
`C` after it is not consumed and not part of the construct (final cursor
5, before `C`) — and a `RightBrace` immediately following that element is
swallowed by the construct (final cursor 6, past that brace). -/
theorem postfix_script_single_element (f : Nat) (a b c op name : String)
    (ea : List Event)
    (hop : (op = "rsub" ∧ name = "msub") ∨ (op = "^" ∧ name = "msup") ∨
           (op = "over" ∧ name = "mfrac"))
    (hb1 : b ≠ "acute") (hb2 : b ≠ "sqrt") (hb3 : b ≠ "sum")
    (hb4 : b ≠ "left") (hb5 : b ≠ "right")
    (ha : run (f + 1) (Call.exprGo [Token.word a] 0 1 true) = .ok (ea, 1)) :
    parse_element (f + 1 + 1 + 1 + 1)
      [Token.lbrace, Token.word a, Token.rbrace, Token.word op,
       Token.word b, Token.rbrace] 0 0 =
      .ok ([Event.start name [], Event.text (nlIndent 4)] ++ ea
            ++ [Event.text (nlIndent 4)] ++ renderWord b
            ++ [Event.text (nlIndent 3), Event.stop name], 6) ∧
    parse_element (f + 1 + 1 + 1 + 1)
      [Token.lbrace, Token.word a, Token.rbrace, Token.word op,
       Token.word b, Token.word c] 0 0 =
      .ok ([Event.start name [], Event.text (nlIndent 4)] ++ ea
            ++ [Event.text (nlIndent 4)] ++ renderWord b
            ++ [Event.text (nlIndent 3), Event.stop name], 5) := by
  obtain ⟨ho, hn⟩ | ⟨ho, hn⟩ | ⟨ho, hn⟩ := hop <;> subst ho <;> subst hn
  · constructor
    · rw [show parse_element (f + 1 + 1 + 1 + 1)
            [Token.lbrace, Token.word a, Token.rbrace, Token.word "rsub",
             Token.word b, Token.rbrace] 0 0 =
          run (f + 1 + 1) (Call.groupPostfix "msub"
            [Token.lbrace, Token.word a, Token.rbrace, Token.word "rsub",
             Token.word b, Token.rbrace] 1 3 0) from rfl,
        postfix_script_aux f "msub" a b (Token.word "rsub") Token.rbrace ea
          hb1 hb2 hb3 hb4 hb5 ha]
      rfl
    · rw [show parse_element (f + 1 + 1 + 1 + 1)
            [Token.lbrace, Token.word a, Token.rbrace, Token.word "rsub",
             Token.word b, Token.word c] 0 0 =
          run (f + 1 + 1) (Call.groupPostfix "msub"
            [Token.lbrace, Token.word a, Token.rbrace, Token.word "rsub",
             Token.word b, Token.word c] 1 3 0) from rfl,
        postfix_script_aux f "msub" a b (Token.word "rsub") (Token.word c) ea
          hb1 hb2 hb3 hb4 hb5 ha]
      rfl
  · constructor
    · rw [show parse_element (f + 1 + 1 + 1 + 1)
            [Token.lbrace, Token.word a, Token.rbrace, Token.word "^",
             Token.word b, Token.rbrace] 0 0 =
          run (f + 1 + 1) (Call.groupPostfix "msup"
            [Token.lbrace, Token.word a, Token.rbrace, Token.word "^",
             Token.word b, Token.rbrace] 1 3 0) from rfl,
        postfix_script_aux f "msup" a b (Token.word "^") Token.rbrace ea
          hb1 hb2 hb3 hb4 hb5 ha]
      rfl
    · rw [show parse_element (f + 1 + 1 + 1 + 1)
            [Token.lbrace, Token.word a, Token.rbrace, Token.word "^",
             Token.word b, Token.word c] 0 0 =
          run (f + 1 + 1) (Call.groupPostfix "msup"
            [Token.lbrace, Token.word a, Token.rbrace, Token.word "^",
             Token.word b, Token.word c] 1 3 0) from rfl,
        postfix_script_aux f "msup" a b (Token.word "^") (Token.word c) ea
          hb1 hb2 hb3 hb4 hb5 ha]
      rfl
  · constructor
    · rw [show parse_element (f + 1 + 1 + 1 + 1)
            [Token.lbrace, Token.word a, Token.rbrace, Token.word "over",
             Token.word b, Token.rbrace] 0 0 =
          run (f + 1 + 1) (Call.groupPostfix "mfrac"
            [Token.lbrace, Token.word a, Token.rbrace, Token.word "over",
             Token.word b, Token.rbrace] 1 3 0) from rfl,
        postfix_script_aux f "mfrac" a b (Token.word "over") Token.rbrace ea
          hb1 hb2 hb3 hb4 hb5 ha]
      rfl
    · rw [show parse_element (f + 1 + 1 + 1 + 1)
            [Token.lbrace, Token.word a, Token.rbrace, Token.word "over",
             Token.word b, Token.word c] 0 0 =
          run (f + 1 + 1) (Call.groupPostfix "mfrac"
            [Token.lbrace, Token.word a, Token.rbrace, Token.word "over",
             Token.word b, Token.word c] 1 3 0) from rfl,
        postfix_script_aux f "mfrac" a b (Token.word "over") (Token.word c) ea
          hb1 hb2 hb3 hb4 hb5 ha]
      rfl

/-- C6 witness: the theorem applied to `{x} rsub y }` and `{x} rsub y z`. -/
theorem postfix_script_single_element_witness :
    parse_element 8
      [Token.lbrace, Token.word "x", Token.rbrace, Token.word "rsub",
       Token.word "y", Token.rbrace] 0 0 =
      .ok ([Event.start "msub" [], Event.text (nlIndent 4)]
            ++ [Event.start "mi" [], Event.text "x", Event.stop "mi"]
            ++ [Event.text (nlIndent 4)] ++ renderWord "y"
            ++ [Event.text (nlIndent 3), Event.stop "msub"], 6) ∧
    parse_element 8
      [Token.lbrace, Token.word "x", Token.rbrace, Token.word "rsub",
       Token.word "y", Token.word "z"] 0 0 =
      .ok ([Event.start "msub" [], Event.text (nlIndent 4)]
            ++ [Event.start "mi" [], Event.text "x", Event.stop "mi"]
            ++ [Event.text (nlIndent 4)] ++ renderWord "y"
            ++ [Event.text (nlIndent 3), Event.stop "msub"], 5) :=
  postfix_script_single_element 4 "x" "y" "z" "rsub" "msub"
    [Event.start "mi" [], Event.text "x", Event.stop "mi"]
    (Or.inl ⟨rfl, rfl⟩) (by decide) (by decide) (by decide) (by decide)
    (by decide) (by decide)

/-- Count of start events with a given element name. -/
def countStart (evs : List Event) (name : String) : Nat :=
  evs.countP (fun e => match e with | .start n _ => n == name | _ => false)

/-- Count of end events with a given element name. -/
def countStop (evs : List Event) (name : String) : Nat :=
  evs.countP (fun e => match e with | .stop n => n == name | _ => false)

/-- The full event stream produced for the input `left (`. -/
def fenceCexEvents : List Event :=
  docHeader ++ fencePre "(" 0 ++ fencePost 0 ++ docMid
    ++ annotationBody "left (" ++ docTail

/-- C4 counterexample: the claim states that for a `left` construct whose
`right` never appears, every element start emitted by the fence handler
is matched by an end event, so the document stays well-formed.  On the
input `left (` the conversion succeeds but the emitted stream contains
one more `mrow` start than `mrow` end — the fence handler's early return
(lib.rs 576) skips the closing of its outer `mrow` — so the document is
not well-formed. -/
theorem fence_unbalanced_counterexample :
    starmath_to_mathml 100 "left (" = PResult.ok fenceCexEvents ∧
    countStart fenceCexEvents "mrow" = countStop fenceCexEvents "mrow" + 1 := by
  decide

/-- C4 amended: a `left` construct whose `right` counterpart never
appears is accepted silently — no warning or error — but the fence
handler returns early with its outer `mrow` never closed: it emits three
`mrow` starts and only two `mrow` ends, so the assembled document is not
well-formed XML.  Moreover, if a `RightBrace` is reached inside the
unterminated fence body, the interior loop makes no progress and the
conversion does not terminate at all (the second conjunct: the result is
fuel exhaustion at every fuel). -/
theorem fence_missing_right_amended :
    (∀ (x : String) (f d : Nat),
      parse_left_fence (f + 1 + 1) [Token.word "left", Token.word x] 0 d =
        .ok (fencePre x d ++ fencePost d, 2) ∧
      countStart (fencePre x d ++ fencePost d) "mrow" = 3 ∧
      countStop (fencePre x d ++ fencePost d) "mrow" = 2) ∧
    (∀ f : Nat, starmath_to_mathml f "left ( \x7d" = PResult.fuelOut) := by
  constructor
  · intro x f d
    refine ⟨rfl, ?_, ?_⟩ <;>
      simp [countStart, countStop, fencePre, fencePost]
  · have stuck : ∀ g, run g (Call.fenceBody [Token.word "left", Token.word "(", Token.rbrace] 2 0) = PResult.fuelOut := by
      intro g
      induction g with
      | zero => rfl
      | succ g ihg =>
        have t1 : run (g + 1) (Call.fenceBody [Token.word "left", Token.word "(", Token.rbrace] 2 0) =
            pbind (run g (Call.elem [Token.word "left", Token.word "(", Token.rbrace] 2 3)) (fun r =>
              pbind (run g (Call.fenceBody [Token.word "left", Token.word "(", Token.rbrace] r.2 0)) (fun r2 =>
                .ok (r.1 ++ fenceIndent 0 ([Token.word "left", Token.word "(", Token.rbrace].get? r.2) ++ r2.1, r2.2))) := rfl
        rw [t1]
        cases g with
        | zero => rfl
        | succ h =>
          rw [show run (h + 1) (Call.elem [Token.word "left", Token.word "(", Token.rbrace] 2 3) = .ok ([], 2) from rfl]
          simp only [pbind_ok]
          rw [ihg]
          rfl
    intro f
    unfold starmath_to_mathml parse_expression
    rw [show tokenize "left ( \x7d" = [Token.word "left", Token.word "(", Token.rbrace] from by decide]
    have hgo : run f (Call.exprGo [Token.word "left", Token.word "(", Token.rbrace] 0 0 true) = PResult.fuelOut := by
      cases f with
      | zero => rfl
      | succ g1 =>
        have t1 : run (g1 + 1) (Call.exprGo [Token.word "left", Token.word "(", Token.rbrace] 0 0 true) =
            pbind (run g1 (Call.elem [Token.word "left", Token.word "(", Token.rbrace] 0 0)) (fun r =>
              pbind (run g1 (Call.exprGo [Token.word "left", Token.word "(", Token.rbrace] r.2 0 false)) (fun r2 =>
                .ok (r.1 ++ r2.1, r2.2))) := rfl
        rw [t1]
        cases g1 with
        | zero => rfl
        | succ g2 =>
          rw [show run (g2 + 1) (Call.elem [Token.word "left", Token.word "(", Token.rbrace] 0 0) =
                run g2 (Call.leftFence [Token.word "left", Token.word "(", Token.rbrace] 0 0) from rfl]
          cases g2 with
          | zero => rfl
          | succ g3 =>
            have hlf : run (g3 + 1) (Call.leftFence [Token.word "left", Token.word "(", Token.rbrace] 0 0) =
                PResult.fuelOut := by
              rw [show run (g3 + 1) (Call.leftFence [Token.word "left", Token.word "(", Token.rbrace] 0 0) =
                    leftFenceStep (run g3) [Token.word "left", Token.word "(", Token.rbrace] 0 0
                      (some (Token.word "(")) from rfl]
              simp only [leftFenceStep, Nat.zero_add]
              rw [stuck g3]
              rfl
            rw [hlf]
            rfl
    rw [hgo]

/-- C8: whenever the parser part succeeds, the assembled document is the
fixed skeleton around the parsed fragment, with the annotation element's
text content equal to the entity-decoded raw input, verbatim; the extra
newline-plus-indentation text before the annotation text appears exactly
when the decoded text's UTF-8 byte length exceeds 70. -/
theorem annotation_verbatim_and_layout (input : String) (fuel : Nat)
    (pevs : List Event) (p : Nat)
    (h : parse_expression fuel (tokenize input) 0 0 = .ok (pevs, p)) :
    starmath_to_mathml fuel input =
      .ok (docHeader ++ pevs ++ docMid
            ++ annotationBody (decode_html_entities input) ++ docTail) ∧
    annotationBody (decode_html_entities input) =
      (if 70 < (decode_html_entities input).utf8ByteSize then
        [Event.text "\n      ", Event.text (decode_html_entities input)]
       else [Event.text (decode_html_entities input)]) := by
  constructor
  · unfold starmath_to_mathml
    rw [h]
  · rfl

/-- C8 witness: the theorem applied to the input `x`. -/
theorem annotation_verbatim_and_layout_witness :
    starmath_to_mathml 4 "x" =
      .ok (docHeader ++ [Event.start "mi" [], Event.text "x", Event.stop "mi"]
            ++ docMid ++ annotationBody (decode_html_entities "x") ++ docTail) ∧
    annotationBody (decode_html_entities "x") =
      (if 70 < (decode_html_entities "x").utf8ByteSize then
        [Event.text "\n      ", Event.text (decode_html_entities "x")]
       else [Event.text (decode_html_entities "x")]) :=
  annotation_verbatim_and_layout "x" 4
    [Event.start "mi" [], Event.text "x", Event.stop "mi"] 1 (by decide)

/-- C8 counterexample: the claim triggers the multiline annotation layout
when the decoded text exceeds 70 characters.  The code tests
`decoded.len() > 70`, a UTF-8 byte count: for an input of 36 copies of
the two-byte character α (36 characters, 72 bytes) the newline and base
indentation are inserted even though the text is at most 70 characters
long. -/
theorem annotation_multiline_bytes_counterexample :
    "αααααααααααααααααααααααααααααααααααα".length = 36 ∧ 36 ≤ 70 ∧
    starmath_to_mathml 4 "αααααααααααααααααααααααααααααααααααα" =
      .ok (docHeader
            ++ [Event.start "mi" [("mathvariant", "italic")],
                Event.text "αααααααααααααααααααααααααααααααααααα", Event.stop "mi"]
            ++ docMid
            ++ [Event.text "\n      ", Event.text "αααααααααααααααααααααααααααααααααααα"]
            ++ docTail) := by
  decide

/-- C5: for every input of the token shape `{A} rsub {B}` (and `^`,
`over`) with `A`, `B` single words, parsing produces the construct
element (`msub`/`msup`/`mfrac`) whose first child is the rendering of
`A` and whose second child is the rendering of `B`; the renderings are
themselves what the parser produces on the one-word sequences. -/
theorem braced_postfix_constructs (a b op name : String)
    (hop : (op = "rsub" ∧ name = "msub") ∨ (op = "^" ∧ name = "msup") ∨
           (op = "over" ∧ name = "mfrac")) :
    ∃ ea eb : List Event,
      parse_expression 5 [Token.word a] 0 1 = .ok (ea, 1) ∧
      parse_expression 5 [Token.word b] 0 1 = .ok (eb, 1) ∧
      parse_expression 12
        [Token.lbrace, Token.word a, Token.rbrace, Token.word op, Token.lbrace, Token.word b, Token.rbrace] 0 0 =
      .ok ([Event.start name [], Event.text (nlIndent 4)] ++ ea
            ++ [Event.text (nlIndent 4)] ++ eb
            ++ [Event.text (nlIndent 3), Event.stop name], 7) := by
  obtain ⟨ea, hea⟩ := exprGo_singleWord1 a
  obtain ⟨eb, heb⟩ := exprGo_singleWord1 b
  have hea8 : run 8 (Call.exprGo [Token.word a] 0 1 true) = .ok (ea, 1) := by
    rw [run_mono 5 8 _ (by omega) (by rw [hea]; intro hc; exact PResult.noConfusion hc)]
    exact hea
  refine ⟨ea, eb, hea, heb, ?_⟩
  show run 12 (Call.exprGo [Token.lbrace, Token.word a, Token.rbrace, Token.word op, Token.lbrace, Token.word b, Token.rbrace] 0 0 true) = _
  obtain ⟨ho, hn⟩ | ⟨ho, hn⟩ | ⟨ho, hn⟩ := hop <;> subst ho <;> subst hn
  · have t1 : run 12 (Call.exprGo [Token.lbrace, Token.word a, Token.rbrace, Token.word "rsub", Token.lbrace, Token.word b, Token.rbrace] 0 0 true) =
        pbind (run 9 (Call.groupPostfix "msub" [Token.lbrace, Token.word a, Token.rbrace, Token.word "rsub", Token.lbrace, Token.word b, Token.rbrace] 1 3 0)) (fun r =>
          pbind (run 11 (Call.exprGo [Token.lbrace, Token.word a, Token.rbrace, Token.word "rsub", Token.lbrace, Token.word b, Token.rbrace] r.2 0 false)) (fun r2 =>
            .ok (r.1 ++ r2.1, r2.2))) := rfl
    rw [t1, postfix_shape_aux 5 "msub" a b (Token.word "rsub") ea eb hea8 heb]
    simp only [pbind_ok]
    rw [show run 11 (Call.exprGo [Token.lbrace, Token.word a, Token.rbrace, Token.word "rsub", Token.lbrace, Token.word b, Token.rbrace] 7 0 false) = .ok ([], 7) from rfl]
    simp only [pbind_ok]
    simp
  · have t1 : run 12 (Call.exprGo [Token.lbrace, Token.word a, Token.rbrace, Token.word "^", Token.lbrace, Token.word b, Token.rbrace] 0 0 true) =
        pbind (run 9 (Call.groupPostfix "msup" [Token.lbrace, Token.word a, Token.rbrace, Token.word "^", Token.lbrace, Token.word b, Token.rbrace] 1 3 0)) (fun r =>
          pbind (run 11 (Call.exprGo [Token.lbrace, Token.word a, Token.rbrace, Token.word "^", Token.lbrace, Token.word b, Token.rbrace] r.2 0 false)) (fun r2 =>
            .ok (r.1 ++ r2.1, r2.2))) := rfl
    rw [t1, postfix_shape_aux 5 "msup" a b (Token.word "^") ea eb hea8 heb]
    simp only [pbind_ok]
    rw [show run 11 (Call.exprGo [Token.lbrace, Token.word a, Token.rbrace, Token.word "^", Token.lbrace, Token.word b, Token.rbrace] 7 0 false) = .ok ([], 7) from rfl]
    simp only [pbind_ok]
    simp
  · have t1 : run 12 (Call.exprGo [Token.lbrace, Token.word a, Token.rbrace, Token.word "over", Token.lbrace, Token.word b, Token.rbrace] 0 0 true) =
        pbind (run 9 (Call.groupPostfix "mfrac" [Token.lbrace, Token.word a, Token.rbrace, Token.word "over", Token.lbrace, Token.word b, Token.rbrace] 1 3 0)) (fun r =>
          pbind (run 11 (Call.exprGo [Token.lbrace, Token.word a, Token.rbrace, Token.word "over", Token.lbrace, Token.word b, Token.rbrace] r.2 0 false)) (fun r2 =>
            .ok (r.1 ++ r2.1, r2.2))) := rfl
    rw [t1, postfix_shape_aux 5 "mfrac" a b (Token.word "over") ea eb hea8 heb]
    simp only [pbind_ok]
    rw [show run 11 (Call.exprGo [Token.lbrace, Token.word a, Token.rbrace, Token.word "over", Token.lbrace, Token.word b, Token.rbrace] 7 0 false) = .ok ([], 7) from rfl]
    simp only [pbind_ok]
    simp

/-- C5 witness: the theorem applied to `{x} rsub {y}`, with the
renderings evaluated. -/
theorem braced_postfix_constructs_witness :
    parse_expression 12
      [Token.lbrace, Token.word "x", Token.rbrace, Token.word "rsub",
       Token.lbrace, Token.word "y", Token.rbrace] 0 0 =
    .ok ([Event.start "msub" [], Event.text (nlIndent 4),
          Event.start "mi" [], Event.text "x", Event.stop "mi",
          Event.text (nlIndent 4),
          Event.start "mi" [], Event.text "y", Event.stop "mi",
          Event.text (nlIndent 3), Event.stop "msub"], 7) := by
  obtain ⟨ea, eb, hea, heb, h⟩ :=
    braced_postfix_constructs "x" "y" "rsub" "msub" (Or.inl ⟨rfl, rfl⟩)
  have hx : parse_expression 5 [Token.word "x"] 0 1 =
      .ok ([Event.start "mi" [], Event.text "x", Event.stop "mi"], 1) := by decide
  have hy : parse_expression 5 [Token.word "y"] 0 1 =
      .ok ([Event.start "mi" [], Event.text "y", Event.stop "mi"], 1) := by decide
  rw [hea] at hx
  rw [heb] at hy
  simp only [PResult.ok.injEq, Prod.mk.injEq] at hx hy
  rw [hx.1, hy.1] at h
  simpa using h


/-- C1: the claim states that `starmath_to_mathml` returns a result for
every input and an unmatched `LeftBrace` (the input `"{"`) never causes a
panic.  The code disagrees: on `"{"`, `parse_group` computes
`group_start = 1`, `group_end = 1`, and evaluates the slice
`tokens[1..0]`, whose start exceeds its end — a Rust panic.  This theorem
evaluates the embedded code at that input and observes the panic. -/
theorem starmath_single_lbrace_panics :
    starmath_to_mathml 100 "\x7b" = PResult.panicked ∧
    ∀ g, 100 ≤ g → starmath_to_mathml g "\x7b" = PResult.panicked := by
  have h100 : run 100 (Call.exprGo (tokenize "\x7b") 0 0 true) =
      PResult.panicked := by decide
  refine ⟨by decide, fun g hg => ?_⟩
  unfold starmath_to_mathml parse_expression
  rw [run_mono 100 g _ hg
    (by rw [h100]; intro hc; exact PResult.noConfusion hc), h100]

/-- C1 witness: the panic persists at a larger fuel. -/
theorem starmath_single_lbrace_panics_witness :
    starmath_to_mathml 101 "\x7b" = PResult.panicked :=
  starmath_single_lbrace_panics.2 101 (by decide)

/-- C2 counterexample: the claim states that a character produced by
decoding is never re-scanned, so `decode_html_entities "&amp;lt;"` keeps
the literal text `"&lt;"`.  In the code the four `replace` passes run
sequentially over the whole string, so the `&` produced by the `&amp;`
pass is re-scanned by the later `&lt;` pass and the result is `"<"`. -/
theorem decode_amp_lt_counterexample :
    decode_html_entities "&amp;lt;" = "<" ∧
    decode_html_entities "&amp;lt;" ≠ "&lt;" := by decide

/-- C2 amended: the decoder performs four sequential whole-string
replacement passes in the order `&quot;`, `&amp;`, `&lt;`, `&gt;`; within
one pass occurrences are replaced left-to-right, non-overlapping and
without re-scanning, but the output of the `&amp;` pass is re-scanned by
the later `&lt;`/`&gt;` passes (while escapes re-formed for the two
earlier passes stay literal).  On ampersand-free input the decoder is the
identity. -/
theorem decode_sequential_passes :
    (∀ s : String, (∀ c ∈ s.toList, c ≠ '&') → decode_html_entities s = s) ∧
    decode_html_entities "&quot;&amp;&lt;&gt;" = "\"&<>" ∧
    decode_html_entities "&amp;gt;" = ">" ∧
    decode_html_entities "&amp;quot;" = "&quot;" ∧
    decode_html_entities "&amp;amp;" = "&amp;" :=
  ⟨decode_of_no_amp, by decide, by decide, by decide, by decide⟩

/-- C2 witness: the amended theorem applied at a concrete input. -/
theorem decode_sequential_passes_witness :
    decode_html_entities "xy" = "xy" :=
  decode_sequential_passes.1 "xy" (by decide)

/-- C3 counterexample: the claim states the decoder is idempotent on every
string.  It is not: `"&amp;amp;"` decodes to `"&amp;"`, which decodes
again to `"&"`. -/
theorem decode_not_idempotent_counterexample :
    decode_html_entities (decode_html_entities "&amp;amp;") ≠
      decode_html_entities "&amp;amp;" := by decide

/-- C3 amended: the decoder is not idempotent in general — decoding can
re-form an escape sequence (`"&amp;amp;"` ↦ `"&amp;"` ↦ `"&"`) — but it
is idempotent on every string that contains no ampersand, where it is the
identity. -/
theorem decode_idempotent_amended :
    decode_html_entities "&amp;amp;" = "&amp;" ∧
    decode_html_entities (decode_html_entities "&amp;amp;") = "&" ∧
    (∀ s : String, (∀ c ∈ s.toList, c ≠ '&') →
      decode_html_entities (decode_html_entities s) = decode_html_entities s) :=
  ⟨by decide, by decide, fun s h => by
    rw [decode_of_no_amp s h, decode_of_no_amp s h]⟩

/-- C3 witness: the amended idempotence applied at a concrete input. -/
theorem decode_idempotent_amended_witness :
    decode_html_entities (decode_html_entities "xyz") =
      decode_html_entities "xyz" :=
  decode_idempotent_amended.2.2 "xyz" (by decide)

/-- C7 counterexample: the claim states a single-character identifier gets
no style attribute regardless of how many bytes encode the character.
The code tests `word.len() > 1`, which is the UTF-8 byte length: the
one-character identifier `"α"` (two bytes) does receive
`mathvariant="italic"`. -/
theorem mi_italic_single_char_counterexample :
    parse_element 5 [Token.word "α"] 0 0 =
      .ok ([.start "mi" [("mathvariant", "italic")], .text "α", .stop "mi"], 1) ∧
    "α".length = 1 := by decide

/-- C7 amended: for a `Word` that is not a construct keyword, not an
operator glyph and not a number, the emitted `<mi>` carries
`mathvariant="italic"` exactly when the word's UTF-8 byte length exceeds
one and the word is not a standard function name; a standard function
name gets no attribute regardless of length. -/
theorem mi_attribute_iff_multibyte (w : String) (f : Nat)
    (ts : List Token) (pos depth : Nat)
    (hw : ts.get? pos = some (Token.word w))
    (hk : w ≠ "acute" ∧ w ≠ "sqrt" ∧ w ≠ "sum" ∧ w ≠ "left" ∧ w ≠ "right")
    (hop : ¬ isOperatorWord w)
    (hnum : isNumberWord w = false) :
    parse_element (f + 1) ts pos depth =
      .ok ([.start "mi"
              (if 1 < w.utf8ByteSize ∧ isStdFunction w = false then
                [("mathvariant", "italic")] else []),
            .text w, .stop "mi"], pos + 1) := by
  unfold parse_element
  simp only [run]
  rw [hw]
  simp only [elemStep]
  rw [if_neg hk.1, if_neg hk.2.1, if_neg hk.2.2.1, if_neg hk.2.2.2.1,
    if_neg hk.2.2.2.2, if_neg hop]
  simp [hnum]

/-- C7 witness: the amended theorem applied to the two-byte identifier
`"ab"`. -/
theorem mi_attribute_iff_multibyte_witness :
    parse_element 5 [Token.word "ab"] 0 0 =
      .ok ([.start "mi"
              (if 1 < "ab".utf8ByteSize ∧ isStdFunction "ab" = false then
                [("mathvariant", "italic")] else []),
            .text "ab", .stop "mi"], 1) :=
  mi_attribute_iff_multibyte "ab" 4 [Token.word "ab"] 0 0 (by decide)
    (by decide) (by decide) (by decide)

/-- C9: `parse_expression`'s loop repeatedly parses one element at a
time, emitting an indentation-text event before each element after the
first, and stops exactly at a `RightBrace` or at the end of the token
sequence without consuming the terminating `RightBrace` — whenever it
returns normally the final cursor is at the sequence end or points at a
`RightBrace` (first conjunct); started on a `RightBrace` it returns
immediately with the cursor unmoved and nothing emitted (second
conjunct); and on any other token it parses one element and loops at the
new cursor, with the separating indentation emitted exactly when the
element is not the first (third conjunct). -/
theorem parse_expression_stops_at_rbrace_or_end :
    (∀ fuel ts pos depth first evs pos2,
        run fuel (Call.exprGo ts pos depth first) = .ok (evs, pos2) →
        ts.length ≤ pos2 ∨ ts.get? pos2 = some Token.rbrace) ∧
    (∀ fuel ts pos depth first,
        ts.get? pos = some Token.rbrace →
        run (fuel + 1) (Call.exprGo ts pos depth first) = .ok ([], pos)) ∧
    (∀ fuel ts pos depth t, ts.get? pos = some t → t ≠ Token.rbrace →
        run (fuel + 1) (Call.exprGo ts pos depth true) =
          pbind (run fuel (Call.elem ts pos depth)) (fun r =>
            pbind (run fuel (Call.exprGo ts r.2 depth false)) (fun r2 =>
              .ok (r.1 ++ r2.1, r2.2))) ∧
        run (fuel + 1) (Call.exprGo ts pos depth false) =
          pbind (run fuel (Call.elem ts pos depth)) (fun r =>
            pbind (run fuel (Call.exprGo ts r.2 depth false)) (fun r2 =>
              .ok ([Event.text (nlIndent (3 + depth))] ++ r.1 ++ r2.1,
                   r2.2)))) := by
  refine ⟨?_, ?_, ?_⟩
  · intro fuel
    induction fuel with
    | zero =>
      intro ts pos depth first evs pos2 h
      exact absurd h (by simp [run])
    | succ f ih =>
      intro ts pos depth first evs pos2 h
      simp only [run] at h
      cases hget : ts.get? pos with
      | none =>
        rw [hget] at h
        simp only [exprGoStep, PResult.ok.injEq, Prod.mk.injEq] at h
        exact Or.inl (h.2 ▸ List.get?_eq_none.mp hget)
      | some t =>
        rw [hget] at h
        simp only [exprGoStep] at h
        by_cases ht : t = Token.rbrace
        · rw [if_pos ht] at h
          simp only [PResult.ok.injEq, Prod.mk.injEq] at h
          exact Or.inr (h.2 ▸ ht ▸ hget)
        · rw [if_neg ht] at h
          cases h1 : run f (Call.elem ts pos depth) with
          | ok r =>
            rw [h1] at h
            simp only [pbind_ok] at h
            cases h2 : run f (Call.exprGo ts r.2 depth false) with
            | ok r2 =>
              rw [h2] at h
              simp only [pbind_ok, PResult.ok.injEq, Prod.mk.injEq] at h
              exact h.2 ▸ ih ts r.2 depth false r2.1 r2.2 (by rw [h2])
            | panicked => rw [h2] at h; exact absurd h (by simp [pbind])
            | fuelOut => rw [h2] at h; exact absurd h (by simp [pbind])
          | panicked => rw [h1] at h; exact absurd h (by simp [pbind])
          | fuelOut => rw [h1] at h; exact absurd h (by simp [pbind])
  · intro fuel ts pos depth first hget
    simp only [run]
    rw [hget]
    simp [exprGoStep]
  · intro fuel ts pos depth t hget ht
    constructor <;>
      (simp only [run]; rw [hget]; simp only [exprGoStep]; rw [if_neg ht]; rfl)

/-- C9 witness: the three conjuncts applied at concrete inputs. -/
theorem parse_expression_stops_witness :
    ([Token.word "x"].length ≤ 1 ∨
      [Token.word "x"].get? 1 = some Token.rbrace) ∧
    run 5 (Call.exprGo [Token.rbrace] 0 0 true) = .ok ([], 0) ∧
    run 4 (Call.exprGo [Token.word "x"] 0 0 false) =
      pbind (run 3 (Call.elem [Token.word "x"] 0 0)) (fun r =>
        pbind (run 3 (Call.exprGo [Token.word "x"] r.2 0 false)) (fun r2 =>
          .ok ([Event.text (nlIndent 3)] ++ r.1 ++ r2.1, r2.2))) :=
  ⟨parse_expression_stops_at_rbrace_or_end.1 5 [Token.word "x"] 0 0 true
      [.start "mi" [], .text "x", .stop "mi"] 1 (by decide),
   parse_expression_stops_at_rbrace_or_end.2.1 4 [Token.rbrace] 0 0 true
      (by decide),
   (parse_expression_stops_at_rbrace_or_end.2.2 3 [Token.word "x"] 0 0
      (Token.word "x") rfl (by intro hc; exact Token.noConfusion hc)).2⟩

/-- C10: for the empty string and every whitespace-only input the
conversion succeeds: the tokenizer produces no tokens, the parser emits
nothing, and the result is the fixed document skeleton whose annotation
text is the decoded — hence unchanged — input. -/
theorem empty_and_whitespace_accepted (s : String)
    (hs : ∀ c ∈ s.toList, c = ' ' ∨ c = '\t' ∨ c = '\n') :
    tokenize s = [] ∧
    decode_html_entities s = s ∧
    ∀ f : Nat, starmath_to_mathml (f + 1) s =
      .ok (docHeader ++ docMid ++ annotationBody s ++ docTail) := by
  have hamp : ∀ c ∈ s.toList, c ≠ '&' := by
    intro c hc
    rcases hs c hc with h | h | h <;> rw [h] <;> decide
  have hdec : decode_html_entities s = s := decode_of_no_amp s hamp
  have htok : tokenize s = [] := by
    unfold tokenize
    rw [hdec]
    exact tokenizeLoopB_ws _ _ hs
  refine ⟨htok, hdec, fun f => ?_⟩
  unfold starmath_to_mathml parse_expression
  rw [htok, hdec]
  simp [run, exprGoStep]

/-- C10 witness: the theorem applied to the empty input and evaluated. -/
theorem empty_and_whitespace_accepted_witness :
    tokenize "" = [] ∧
    decode_html_entities "" = "" ∧
    starmath_to_mathml 4 "" =
      .ok (docHeader ++ docMid ++ annotationBody "" ++ docTail) :=
  ⟨(empty_and_whitespace_accepted "" (by decide)).1,
   (empty_and_whitespace_accepted "" (by decide)).2.1,
   (empty_and_whitespace_accepted "" (by decide)).2.2 3⟩

end Sm2mml
